import Mathlib

/-!
# Verification of the `combo` parser-combinator core

Shallow embedding of `src/combinators.ts` (and its shared result type from
the `-types.ts` module).  Inputs are modelled as `List Char`, positions as `Nat`.
A TypeScript `ParseResult<T>` is the tagged union `ParseResult α` below; a
`Parser<T>` is a total function `List Char → Nat → ParseResult α`.

Combinators whose TypeScript source can loop forever (`many`, `many1`,
`until`) are embedded with an explicit fuel argument returning
`Option (ParseResult α)`, where `none` stands for a computation that has not
terminated within the given fuel; they appear only in the deep syntax
`Combo` used for the whole-library invariants.
-/

namespace Combo

/-- Embeds `ParseResult<T>` from the `-types.ts` module:
`{ success: true; value: T; index: number } | { success: false; expected: string[]; index: number }`. -/
inductive ParseResult (α : Type) : Type where
  | success (value : α) (index : Nat)
  | failure (expected : List String) (index : Nat)
deriving DecidableEq, Repr

/-- Embeds `Parser<T>`: `(input: string, index?: number) => ParseResult<T>`.
The optional index is always passed explicitly here. -/
abbrev Parser (α : Type) := List Char → Nat → ParseResult α

/-- `true` exactly on the `success` branch. -/
def ParseResult.isSuccess : ParseResult α → Bool
  | .success _ _ => true
  | .failure _ _ => false

/-- `true` exactly on the `failure` branch. -/
def ParseResult.isFailure : ParseResult α → Bool
  | .success _ _ => false
  | .failure _ _ => true

/-- The `expected` field of a failure, `[]` on a success. -/
def ParseResult.expectedOf : ParseResult α → List String
  | .success _ _ => []
  | .failure e _ => e

/-- Renders a character the way the source builds expectation strings,
as `'c'` (the apostrophes written with the `\x27` escape). -/
def quoteChar (c : Char) : String := "\x27" ++ c.toString ++ "\x27"

/-- Renders a string pattern as `'s'` for expectation messages. -/
def quoteStr (s : List Char) : String := "\x27" ++ String.mk s ++ "\x27"

/-- Embeds `char(c)`: `input[index] === c ? success : failure` with
expectation `'c'`.  An out-of-range read yields `undefined`, which is
never equal to `c`; `input[index]? = some c` captures both cases. -/
def char (c : Char) : Parser Char := fun input index =>
  if input[index]? = some c then .success c (index + 1)
  else .failure [quoteChar c] index

/-- Embeds `string(s)`: succeeds iff `input.slice(index, index + s.length)`
equals `s`; `slice` clamps out-of-range bounds, which `drop`/`take` mirror. -/
def string (s : List Char) : Parser (List Char) := fun input index =>
  if (input.drop index).take s.length = s then .success s (index + s.length)
  else .failure [quoteStr s] index

/-- Embeds `succeed(value)`: always succeeds, zero-width. -/
def succeed (v : α) : Parser α := fun _ index => .success v index

/-- Embeds `fail(expected)`: always fails, zero-width, with the one
given expectation. -/
def fail (α : Type) (expected : String) : Parser α := fun _ index =>
  .failure [expected] index

/-- Embeds `anyChar`: one character if `index < input.length`, else a
failure expecting `"any character"`. -/
def anyChar : Parser Char := fun input index =>
  match input[index]? with
  | some c => .success c (index + 1)
  | none => .failure ["any character"] index

/-- Embeds `whitespace()`: exactly one of space, tab, newline, carriage
return (an out-of-range read compares unequal to all four). -/
def whitespace : Parser Char := fun input index =>
  match input[index]? with
  | some c =>
      if c = ' ' ∨ c = '\t' ∨ c = '\n' ∨ c = '\r' then .success c (index + 1)
      else .failure ["whitespace"] index
  | none => .failure ["whitespace"] index

/-- Embeds the JavaScript regular-expression class `\s` used by
`whitespaces()` (`/\s/.test`): ASCII whitespace plus the Unicode
space separators, line/paragraph separators and the BOM. -/
def isWsJS (c : Char) : Bool :=
  (0x09 ≤ c.val ∧ c.val ≤ 0x0D) ∨ c.val = 0x20 ∨ c.val = 0xA0 ∨
    c.val = 0x1680 ∨ (0x2000 ≤ c.val ∧ c.val ≤ 0x200A) ∨
    c.val = 0x2028 ∨ c.val = 0x2029 ∨ c.val = 0x202F ∨
    c.val = 0x205F ∨ c.val = 0x3000 ∨ c.val = 0xFEFF

/-- Length of the leading `\s` run of a character list. -/
def wsCount : List Char → Nat
  | [] => 0
  | c :: rest => if isWsJS c then wsCount rest + 1 else 0

/-- The index reached by the `while (currentIndex < input.length &&
/\s/.test(input[currentIndex])) currentIndex++` loop of `whitespaces()`:
the loop adds one per leading whitespace character of the suffix starting
at `index` and stops at the first non-whitespace position or the end. -/
def wsEnd (input : List Char) (index : Nat) : Nat :=
  index + wsCount (input.drop index)

/-- Embeds `whitespaces()`: always succeeds (value `undefined`, here `()`),
consuming the maximal `\s` run from the current position. -/
def whitespaces : Parser Unit := fun input index =>
  .success () (wsEnd input index)

/-- Embeds `[...new Set(errors)]`: deduplication keeping the first
occurrence of each string, in insertion order.  `seen` carries the
strings already emitted. -/
def dedupSeen (seen : List String) : List String → List String
  | [] => []
  | x :: xs => if x ∈ seen then dedupSeen seen xs else x :: dedupSeen (x :: seen) xs

/-- `[...new Set(l)]` with an empty initial `Set`. -/
def dedup (l : List String) : List String := dedupSeen [] l

/-- The loop body of `alt`: tries the remaining parsers at the fixed
starting `index`, accumulating the `expected` arrays of the failures seen
so far in `errors`; when all alternatives are exhausted it fails at the
starting index with the deduplicated accumulated expectations. -/
def altGo (ps : List (Parser α)) (input : List Char) (index : Nat)
    (errors : List String) : ParseResult α :=
  match ps with
  | [] => .failure (dedup errors) index
  | p :: rest =>
      match p input index with
      | .success v j => .success v j
      | .failure e _ => altGo rest input index (errors ++ e)

/-- Embeds `alt(...parsers)` with the variadic argument list modelled as a
`List`. -/
def alt (ps : List (Parser α)) : Parser α := fun input index =>
  altGo ps input index []

/-- The loop body of `seq`: runs the remaining parsers from
`current`, threading the advancing index and pushing values onto
`values`; a sub-parser failure is returned verbatim. -/
def seqGo (ps : List (Parser α)) (input : List Char) (current : Nat)
    (values : List α) : ParseResult (List α) :=
  match ps with
  | [] => .success values current
  | p :: rest =>
      match p input current with
      | .failure e j => .failure e j
      | .success v j => seqGo rest input j (values ++ [v])

/-- Embeds `seq(...parsers)`.  The TypeScript version is heterogeneous
(a tuple type); the control flow and the ordered collection of values are
modelled over a homogeneous `List`. -/
def seq (ps : List (Parser α)) : Parser (List α) := fun input index =>
  seqGo ps input index []

/-- Embeds `map(parser, fn, validate?)`: failures propagate unchanged;
a failing `validate` converts a success into a failure with expectation
`"validated value"` at the original index; otherwise `fn` is applied
and the advanced index kept. -/
def map (p : Parser α) (fn : α → β) (validate : Option (α → Bool)) :
    Parser β := fun input index =>
  match p input index with
  | .failure e j => .failure e j
  | .success v j =>
      match validate with
      | some vd =>
          if vd v then .success (fn v) j
          else .failure ["validated value"] index
      | none => .success (fn v) j

/-- The instance of the variadic `seq` at arity two with heterogeneous
element types, as used by `token`, `between` and `after`: the same
first-failure-verbatim threading, the pair standing for the 2-tuple. -/
def seq2 (p : Parser α) (q : Parser β) : Parser (α × β) := fun input index =>
  match p input index with
  | .failure e j => .failure e j
  | .success v j =>
      match q input j with
      | .failure e k => .failure e k
      | .success w k => .success (v, w) k

/-- Embeds `token(parser) = map(seq(parser, whitespaces()), ([value]) => value)`. -/
def token (p : Parser α) : Parser α :=
  map (seq2 p whitespaces) (fun vw => vw.1) none

/-- Embeds `eof(parser)`: a failure propagates; a success is kept iff its
index equals the input length, and otherwise becomes a failure expecting
`"end of input"` at the index the parser reached. -/
def eof (p : Parser α) : Parser α := fun input index =>
  match p input index with
  | .failure e j => .failure e j
  | .success v j =>
      if j = input.length then .success v j
      else .failure ["end of input"] j

/-- Embeds `peek(parser)`: `{...result, index}` on success (value kept,
index reset to the starting index); failures propagate unchanged. -/
def peek (p : Parser α) : Parser α := fun input index =>
  match p input index with
  | .success v _ => .success v index
  | .failure e j => .failure e j

/-- Embeds `recoverWith(parser, expected)`: successes propagate; a failure
keeps its index but has its expectations replaced by `expected`. -/
def recoverWith (p : Parser α) (expected : List String) : Parser α :=
  fun input index =>
    match p input index with
    | .success v j => .success v j
    | .failure _ j => .failure expected j

/-- ASCII-letter test embedding the regular expression `/^[a-zA-Z]$/` on a
one-character string. -/
def isAsciiLetter (c : Char) : Bool :=
  ('a' ≤ c ∧ c ≤ 'z') ∨ ('A' ≤ c ∧ c ≤ 'Z')

/-- Decimal-digit test embedding `/\d/` on a one-character string. -/
def isDigitJS (c : Char) : Bool := '0' ≤ c ∧ c ≤ '9'

/-- Embeds `letter() = map(anyChar, fn, validate)` with
`validate = /^[a-zA-Z]$/.test`.  The source `fn` returns its argument on a
letter and throws otherwise; `map` only applies `fn` after `validate`
passes, so the function is the identity on every value it ever receives. -/
def letter : Parser Char := map anyChar (fun c => c) (some isAsciiLetter)

/-- Embeds `digit() = map(anyChar, fn, validate)` with `validate = /\d/.test`;
as with `letter`, the guarded `fn` is the identity where it is reached. -/
def digit : Parser Char := map anyChar (fun c => c) (some isDigitJS)

/-- Embeds the per-parser `Map<number, ParseResult>` that `memoize` keeps in
the module-level `WeakMap`, threaded explicitly as an association list from
positions to results. -/
abbrev Cache (α : Type) := List (Nat × ParseResult α)

/-- `cache.get(index)` on the explicit cache. -/
def cacheGet (cache : Cache α) (index : Nat) : Option (ParseResult α) :=
  match cache with
  | [] => none
  | (j, r) :: rest => if j = index then some r else cacheGet rest index

/-- Embeds one invocation of `memoize(parser)` with the cache state passed
and returned explicitly.  The third component records whether the wrapped
parser was invoked (`true`) or the cached outcome was returned (`false`);
it makes the source's observable "does not re-invoke" behaviour a value.
A cached entry is returned as-is (a `ParseResult` object is always truthy,
so the source's `if (cached)` test is exactly presence in the map);
otherwise the parser runs and its outcome is stored under `index`. -/
def memoize (p : Parser α) (cache : Cache α) (input : List Char)
    (index : Nat) : ParseResult α × Cache α × Bool :=
  match cacheGet cache index with
  | some r => (r, cache, false)
  | none =>
      let r := p input index
      (r, (index, r) :: cache, true)

/-! ## Deep syntax of parsers built from the library

The whole-library invariants quantify over "every parser built from the
library's primitives and combinators".  `Built α` is the syntax of such
parsers; `BuiltList α` models the variadic argument lists of `alt`/`seq`.
User-supplied functions (`map`'s `fn`/`validate`, the `String(...)`
rendering used by `not`/`except` for error messages, `andThen`'s
continuations) are carried as Lean functions; an `andThen` continuation
returns an arbitrary semantic parser. -/

mutual
inductive Built : Type → Type 1 where
  | charC (c : Char) : Built Char
  | stringC (s : List Char) : Built (List Char)
  | anyCharC : Built Char
  | whitespaceC : Built Char
  | whitespacesC : Built Unit
  | letterC : Built Char
  | digitC : Built Char
  | succeedC {α : Type} (v : α) : Built α
  | failC {α : Type} (msg : String) : Built α
  | altC {α : Type} (ps : BuiltList α) : Built α
  | seqC {α : Type} (ps : BuiltList α) : Built (List α)
  | mapC {α β : Type} (p : Built α) (fn : α → β) (validate : Option (α → Bool)) : Built β
  | manyC {α : Type} (p : Built α) : Built (List α)
  | many1C {α : Type} (p : Built α) : Built (List α)
  | optionalC {α : Type} (p : Built α) : Built (Option α)
  | betweenC {α β γ : Type} (left : Built α) (right : Built β) (p : Built γ) : Built γ
  | afterC {α β : Type} (pre : Built α) (p : Built β) : Built β
  | untilC {α β : Type} (stop : Built α) (p : Built β) : Built (List β)
  | notC {α : Type} (p : Built α) (toStr : α → String) : Built Unit
  | exceptC {α β : Type} (excl : Built α) (toStr : α → String) (p : Built β) : Built β
  | peekC {α : Type} (p : Built α) : Built α
  | eofC {α : Type} (p : Built α) : Built α
  | tokenC {α : Type} (p : Built α) : Built α
  | recoverWithC {α : Type} (p : Built α) (expected : List String) : Built α
  | andThenC {α β : Type} (p : Built α) (f : α → Parser β) : Built β
inductive BuiltList : Type → Type 1 where
  | nil {α : Type} : BuiltList α
  | cons {α : Type} (p : Built α) (ps : BuiltList α) : BuiltList α
end

/-- A parser denotation in the fuelled semantics: `none` stands for a run
that does not terminate within the available fuel. -/
abbrev OParser (α : Type) := List Char → Nat → Option (ParseResult α)

/-- Fuel-indexed embedding of the `many` loop: `while ((result =
parserFn(input, currentIndex)).success) { values.push(...); ... }`,
finishing with `success` at the current index once the sub-parser fails.
One fuel unit is spent per iteration. -/
def manyGo (p : OParser α) :
    Nat → List Char → Nat → List α → Option (ParseResult (List α))
  | 0, _, _, _ => none
  | fuel + 1, input, index, values =>
      match p input index with
      | none => none
      | some (.failure _ _) => some (.success values index)
      | some (.success v j) => manyGo p fuel input j (values ++ [v])

/-- Fuel-indexed embedding of the `until(stop)(parser)` loop: the stop
parser is checked first without consuming; on its success the loop ends
with the accumulated results, otherwise the item parser runs and its
failure is returned verbatim. -/
def untilGo (stop : OParser σ) (p : OParser α) :
    Nat → List Char → Nat → List α → Option (ParseResult (List α))
  | 0, _, _, _ => none
  | fuel + 1, input, index, results =>
      match stop input index with
      | none => none
      | some (.success _ _) => some (.success results index)
      | some (.failure _ _) =>
          match p input index with
          | none => none
          | some (.failure e j) => some (.failure e j)
          | some (.success v j) => untilGo stop p fuel input j (results ++ [v])

mutual
/-- Denotation of a built parser.  Primitive clauses reuse the total
embeddings above; combinator clauses transcribe the source combinator
bodies, with `between`, `after`, `optional` and `token` unfolding their
source definitions as `map`/`seq`/`alt` compositions.  One unit of fuel
is spent per syntax layer (and per loop iteration inside `manyGo` and
`untilGo`); a run that exhausts its fuel returns `none`, so any result of
the form `some r` is the outcome the unbounded source computation
produces. -/
def denote : Nat → Built α → OParser α
  | 0, _ => fun _ _ => none
  | _ + 1, .charC c => fun input i => some (char c input i)
  | _ + 1, .stringC s => fun input i => some (string s input i)
  | _ + 1, .anyCharC => fun input i => some (anyChar input i)
  | _ + 1, .whitespaceC => fun input i => some (whitespace input i)
  | _ + 1, .whitespacesC => fun input i => some (whitespaces input i)
  | _ + 1, .letterC => fun input i => some (letter input i)
  | _ + 1, .digitC => fun input i => some (digit input i)
  | _ + 1, .succeedC v => fun input i => some (succeed v input i)
  | _ + 1, .failC msg => fun _ i => some (.failure [msg] i)
  | fuel + 1, .altC ps => fun input i => denoteAlt fuel ps input i []
  | fuel + 1, .seqC ps => fun input i => denoteSeq fuel ps input i []
  | fuel + 1, .mapC p fn validate => fun input i =>
      match denote fuel p input i with
      | none => none
      | some (.failure e j) => some (.failure e j)
      | some (.success v j) =>
          match validate with
          | some vd =>
              if vd v then some (.success (fn v) j)
              else some (.failure ["validated value"] i)
          | none => some (.success (fn v) j)
  | fuel + 1, .manyC p => fun input i => manyGo (denote fuel p) fuel input i []
  | fuel + 1, .many1C p => fun input i =>
      match denote fuel p input i with
      | none => none
      | some (.failure e j) => some (.failure e j)
      | some (.success v j) => manyGo (denote fuel p) fuel input j [v]
  | fuel + 1, .optionalC p => fun input i =>
      match denote fuel p input i with
      | none => none
      | some (.success v j) => some (.success (some v) j)
      | some (.failure _ _) => some (.success none i)
  | fuel + 1, .betweenC left right p => fun input i =>
      match denote fuel left input i with
      | none => none
      | some (.failure e j) => some (.failure e j)
      | some (.success _ jl) =>
          match denote fuel p input jl with
          | none => none
          | some (.failure e j) => some (.failure e j)
          | some (.success v jp) =>
              match denote fuel right input jp with
              | none => none
              | some (.failure e j) => some (.failure e j)
              | some (.success _ jr) => some (.success v jr)
  | fuel + 1, .afterC pre p => fun input i =>
      match denote fuel pre input i with
      | none => none
      | some (.failure e j) => some (.failure e j)
      | some (.success _ jl) =>
          match denote fuel p input jl with
          | none => none
          | some (.failure e j) => some (.failure e j)
          | some (.success v jp) => some (.success v jp)
  | fuel + 1, .untilC stop p => fun input i =>
      untilGo (denote fuel stop) (denote fuel p) fuel input i []
  | fuel + 1, .notC p toStr => fun input i =>
      match denote fuel p input i with
      | none => none
      | some (.success v _) =>
          some (.failure ["not \x27" ++ toStr v ++ "\x27"] i)
      | some (.failure _ _) => some (.success () i)
  | fuel + 1, .exceptC excl toStr p => fun input i =>
      match denote fuel excl input i with
      | none => none
      | some (.success v _) =>
          some (.failure ["not \x27" ++ toStr v ++ "\x27"] i)
      | some (.failure _ _) => denote fuel p input i
  | fuel + 1, .peekC p => fun input i =>
      match denote fuel p input i with
      | none => none
      | some (.success v _) => some (.success v i)
      | some (.failure e j) => some (.failure e j)
  | fuel + 1, .eofC p => fun input i =>
      match denote fuel p input i with
      | none => none
      | some (.failure e j) => some (.failure e j)
      | some (.success v j) =>
          if j = input.length then some (.success v j)
          else some (.failure ["end of input"] j)
  | fuel + 1, .tokenC p => fun input i =>
      match denote fuel p input i with
      | none => none
      | some (.failure e j) => some (.failure e j)
      | some (.success v j) => some (.success v (wsEnd input j))
  | fuel + 1, .recoverWithC p expected => fun input i =>
      match denote fuel p input i with
      | none => none
      | some (.success v j) => some (.success v j)
      | some (.failure _ j) => some (.failure expected j)
  | fuel + 1, .andThenC p f => fun input i =>
      match denote fuel p input i with
      | none => none
      | some (.failure e j) => some (.failure e j)
      | some (.success v j) => some (f v input j)

/-- The `alt` loop over a syntactic argument list (see `altGo`). -/
def denoteAlt : Nat → BuiltList α → List Char → Nat → List String →
    Option (ParseResult α)
  | 0, _, _, _, _ => none
  | _ + 1, .nil, _, i, errors => some (.failure (dedup errors) i)
  | fuel + 1, .cons p rest, input, i, errors =>
      match denote fuel p input i with
      | none => none
      | some (.success v j) => some (.success v j)
      | some (.failure e _) => denoteAlt fuel rest input i (errors ++ e)

/-- The `seq` loop over a syntactic argument list (see `seqGo`). -/
def denoteSeq : Nat → BuiltList α → List Char → Nat → List α →
    Option (ParseResult (List α))
  | 0, _, _, _, _ => none
  | _ + 1, .nil, _, current, values => some (.success values current)
  | fuel + 1, .cons p rest, input, current, values =>
      match denote fuel p input current with
      | none => none
      | some (.failure e j) => some (.failure e j)
      | some (.success v j) => denoteSeq fuel rest input j (values ++ [v])
end

/-- No backward motion for a semantic parser: a success never returns a
position below the starting one. -/
def MonoP (p : Parser α) : Prop :=
  ∀ input i v j, p input i = .success v j → i ≤ j

/-- No backward motion, fuelled version. -/
def MonoO (p : OParser α) : Prop :=
  ∀ input i v j, p input i = some (.success v j) → i ≤ j

/-- Non-empty failure expectations for a semantic parser. -/
def NEFailP (p : Parser α) : Prop :=
  ∀ input i e j, p input i = .failure e j → e ≠ []

/-- Non-empty failure expectations, fuelled version. -/
def NEFailO (p : OParser α) : Prop :=
  ∀ input i e j, p input i = some (.failure e j) → e ≠ []

mutual
/-- Every external (`andThen`-continuation) parser inside the term
satisfies no-backward-motion; all syntactic sub-parsers are covered by the
induction itself. -/
def ExtMono {α : Type} : Built α → Prop
  | .charC _ => True
  | .stringC _ => True
  | .anyCharC => True
  | .whitespaceC => True
  | .whitespacesC => True
  | .letterC => True
  | .digitC => True
  | .succeedC _ => True
  | .failC _ => True
  | .altC ps => ExtMonoList ps
  | .seqC ps => ExtMonoList ps
  | .mapC p _ _ => ExtMono p
  | .manyC p => ExtMono p
  | .many1C p => ExtMono p
  | .optionalC p => ExtMono p
  | .betweenC left right p => ExtMono left ∧ ExtMono right ∧ ExtMono p
  | .afterC pre p => ExtMono pre ∧ ExtMono p
  | .untilC stop p => ExtMono stop ∧ ExtMono p
  | .notC p _ => ExtMono p
  | .exceptC excl _ p => ExtMono excl ∧ ExtMono p
  | .peekC p => ExtMono p
  | .eofC p => ExtMono p
  | .tokenC p => ExtMono p
  | .recoverWithC p _ => ExtMono p
  | .andThenC p f => ExtMono p ∧ ∀ v, MonoP (f v)
def ExtMonoList {α : Type} : BuiltList α → Prop
  | .nil => True
  | .cons p ps => ExtMono p ∧ ExtMonoList ps
end

mutual
/-- Side conditions under which failure expectations stay non-empty:
every `alt` application has at least one alternative, every `recoverWith`
carries a non-empty expectations list, and every external
(`andThen`-continuation) parser itself fails with non-empty
expectations. -/
def AltNE {α : Type} : Built α → Prop
  | .charC _ => True
  | .stringC _ => True
  | .anyCharC => True
  | .whitespaceC => True
  | .whitespacesC => True
  | .letterC => True
  | .digitC => True
  | .succeedC _ => True
  | .failC _ => True
  | .altC .nil => False
  | .altC (.cons p ps) => AltNE p ∧ AltNEList ps
  | .seqC ps => AltNEList ps
  | .mapC p _ _ => AltNE p
  | .manyC p => AltNE p
  | .many1C p => AltNE p
  | .optionalC p => AltNE p
  | .betweenC left right p => AltNE left ∧ AltNE right ∧ AltNE p
  | .afterC pre p => AltNE pre ∧ AltNE p
  | .untilC stop p => AltNE stop ∧ AltNE p
  | .notC p _ => AltNE p
  | .exceptC excl _ p => AltNE excl ∧ AltNE p
  | .peekC p => AltNE p
  | .eofC p => AltNE p
  | .tokenC p => AltNE p
  | .recoverWithC p expected => expected ≠ [] ∧ AltNE p
  | .andThenC p f => AltNE p ∧ ∀ v, NEFailP (f v)
def AltNEList {α : Type} : BuiltList α → Prop
  | .nil => True
  | .cons p ps => AltNE p ∧ AltNEList ps
end

/-- The ordered concatenation of the `expected` arrays produced by running
each parser of the list at the given input and position — the contents of
the `errors` accumulator of `alt` after all alternatives have failed. -/
def allExpected (ps : List (Parser α)) (input : List Char) (index : Nat) :
    List String :=
  match ps with
  | [] => []
  | p :: rest => (p input index).expectedOf ++ allExpected rest input index

/-- Spec-side helper for sequencing: prepend a value to the value list of a
success, leave a failure unchanged. -/
def consValue (v : α) : ParseResult (List α) → ParseResult (List α)
  | .success vs k => .success (v :: vs) k
  | .failure e k => .failure e k

/-- Spec-side helper: prepend an accumulated prefix to the value list of a
success, leave a failure unchanged. -/
def appendValues (acc : List α) : ParseResult (List α) → ParseResult (List α)
  | .success vs k => .success (acc ++ vs) k
  | .failure e k => .failure e k

/-! ## Theorems -/

theorem mem_dedupSeen {seen : List String} {l : List String} {x : String} :
    x ∈ dedupSeen seen l ↔ x ∈ l ∧ x ∉ seen := by
  induction l generalizing seen with
  | nil => simp [dedupSeen]
  | cons y ys ih =>
      by_cases hy : y ∈ seen
      · simp only [dedupSeen, if_pos hy, ih]
        constructor
        · rintro ⟨hx, hs⟩
          exact ⟨List.mem_cons_of_mem _ hx, hs⟩
        · rintro ⟨hx, hs⟩
          rcases List.mem_cons.mp hx with rfl | hx
          · exact absurd hy hs
          · exact ⟨hx, hs⟩
      · simp only [dedupSeen, if_neg hy, List.mem_cons, ih, List.mem_cons]
        constructor
        · rintro (rfl | ⟨hx, hs⟩)
          · exact ⟨Or.inl rfl, hy⟩
          · exact ⟨Or.inr hx, fun hc => hs (Or.inr hc)⟩
        · rintro ⟨hxy | hx, hs⟩
          · exact Or.inl hxy
          · by_cases hxy : x = y
            · exact Or.inl hxy
            · exact Or.inr ⟨hx, fun hc => hc.elim hxy hs⟩

theorem dedupSeen_sublist (seen : List String) (l : List String) :
    (dedupSeen seen l).Sublist l := by
  induction l generalizing seen with
  | nil => simp [dedupSeen]
  | cons y ys ih =>
      by_cases hy : y ∈ seen
      · simpa [dedupSeen, if_pos hy] using (ih seen).cons y
      · simpa [dedupSeen, if_neg hy] using (ih (y :: seen)).cons₂ y

theorem dedupSeen_nodup (seen : List String) (l : List String) :
    (dedupSeen seen l).Nodup := by
  induction l generalizing seen with
  | nil => simp [dedupSeen]
  | cons y ys ih =>
      by_cases hy : y ∈ seen
      · simpa [dedupSeen, if_pos hy] using ih seen
      · simp only [dedupSeen, if_neg hy, List.nodup_cons]
        refine ⟨fun hc => ?_, ih (y :: seen)⟩
        exact (mem_dedupSeen.mp hc).2 (List.mem_cons_self y seen)

theorem dedup_ne_nil {l : List String} (h : l ≠ []) : dedup l ≠ [] := by
  cases l with
  | nil => exact absurd rfl h
  | cons x xs => simp [dedup, dedupSeen]

/-- The `alt` loop run with an error accumulator: if every remaining
alternative fails, it fails at the starting index with the deduplicated
concatenation of the accumulated and the collected expectations. -/
theorem altGo_all_fail {input : List Char} {i : Nat} :
    ∀ (ps : List (Parser α)) (errors : List String),
      (∀ p ∈ ps, (p input i).isFailure = true) →
      altGo ps input i errors =
        .failure (dedup (errors ++ allExpected ps input i)) i := by
  intro ps
  induction ps with
  | nil => intro errors _; simp [altGo, allExpected]
  | cons p rest ih =>
      intro errors hfail
      have hp := hfail p (List.mem_cons_self p rest)
      cases hr : p input i with
      | success v j => simp [hr, ParseResult.isFailure] at hp
      | failure e j =>
          have := ih (errors ++ e) fun q hq => hfail q (List.mem_cons_of_mem _ hq)
          simp only [altGo, hr, this, allExpected, hr, ParseResult.expectedOf]
          simp [List.append_assoc]

/-- The `alt` loop ignores its accumulator once an alternative succeeds. -/
theorem altGo_first_success {input : List Char} {i : Nat} {p : Parser α}
    (hp : (p input i).isSuccess = true) :
    ∀ (ps₁ ps₂ : List (Parser α)) (errors : List String),
      (∀ q ∈ ps₁, (q input i).isFailure = true) →
      altGo (ps₁ ++ p :: ps₂) input i errors = p input i := by
  intro ps₁
  induction ps₁ with
  | nil =>
      intro ps₂ errors _
      cases hr : p input i with
      | success v j => simp [altGo, hr]
      | failure e j => simp [hr, ParseResult.isSuccess] at hp
  | cons q rest ih =>
      intro ps₂ errors hfail
      have hq := hfail q (List.mem_cons_self q rest)
      cases hr : q input i with
      | success v j => simp [hr, ParseResult.isFailure] at hq
      | failure e j =>
          simpa [altGo, hr] using
            ih ps₂ (errors ++ e) fun q' hq' => hfail q' (List.mem_cons_of_mem _ hq')

/-- C1.  `alt(p1..pn)` at input `s` and position `i`: if every alternative
fails there, the aggregate outcome is a failure at the original position
`i` whose expectations are the deduplicated (first occurrence kept, in
first-seen order: a duplicate-free sublist with the same members)
concatenation of every alternative's expectations; and if the list splits
as `ps₁ ++ p :: ps₂` with every parser of `ps₁` failing and `p`
succeeding, the result is `p`'s success verbatim. -/
theorem alt_first_success_and_aggregated_failure
    (ps : List (Parser α)) (input : List Char) (i : Nat) :
    ((∀ p ∈ ps, (p input i).isFailure = true) →
      alt ps input i = .failure (dedup (allExpected ps input i)) i ∧
      (dedup (allExpected ps input i)).Sublist (allExpected ps input i) ∧
      (dedup (allExpected ps input i)).Nodup ∧
      (∀ x, x ∈ dedup (allExpected ps input i) ↔ x ∈ allExpected ps input i)) ∧
    (∀ (ps₁ : List (Parser α)) (p : Parser α) (ps₂ : List (Parser α)),
      ps = ps₁ ++ p :: ps₂ →
      (∀ q ∈ ps₁, (q input i).isFailure = true) →
      (p input i).isSuccess = true →
      alt ps input i = p input i) := by
  constructor
  · intro hfail
    refine ⟨?_, dedupSeen_sublist [] _, dedupSeen_nodup [] _, fun x => ?_⟩
    · simpa [alt] using altGo_all_fail ps [] hfail
    · simp [dedup, mem_dedupSeen]
  · intro ps₁ p ps₂ hsplit hfail hp
    subst hsplit
    simpa [alt] using altGo_first_success hp ps₁ ps₂ [] hfail

/-- Witness for C1, the spec's own example: `alt(char('a'), char('b'))` on
`"c"` at 0 fails with expectations `["'a'", "'b'"]` at position 0, and
`alt(char('a'), char('b'))` on `"bac"` at 0 returns `char('b')`'s success
verbatim. -/
theorem alt_aggregation_witness :
    alt [char 'a', char 'b'] ['c'] 0 =
      .failure [quoteChar 'a', quoteChar 'b'] 0 ∧
    alt [char 'a', char 'b'] ['b', 'a'] 0 = .success 'b' 1 := by
  constructor
  · have h := (alt_first_success_and_aggregated_failure
      [char 'a', char 'b'] ['c'] 0).1 (by decide)
    exact h.1.trans (by decide)
  · have h := (alt_first_success_and_aggregated_failure
      [char 'a', char 'b'] ['b', 'a'] 0).2 [char 'a'] (char 'b') [] rfl
      (by decide) (by decide)
    exact h.trans (by decide)

theorem appendValues_appendValues (acc₁ acc₂ : List α)
    (r : ParseResult (List α)) :
    appendValues acc₁ (appendValues acc₂ r) = appendValues (acc₁ ++ acc₂) r := by
  cases r <;> simp [appendValues]

/-- The `seq` loop with accumulator `values` equals the accumulator-free
loop with the values prefixed. -/
theorem seqGo_append {input : List Char} :
    ∀ (ps : List (Parser α)) (current : Nat) (values : List α),
      seqGo ps input current values =
        appendValues values (seqGo ps input current []) := by
  intro ps
  induction ps with
  | nil => intro current values; simp [seqGo, appendValues]
  | cons p rest ih =>
      intro current values
      cases hr : p input current with
      | failure e j => simp [seqGo, hr, appendValues]
      | success v j =>
          simp only [seqGo, hr]
          rw [ih j (values ++ [v]), ih j ([] ++ [v])]
          simp [appendValues_appendValues]

/-- C2.  `seq(p1..pn)` runs its sub-parsers in order threading the
advancing position: the empty sequence succeeds zero-width with no values;
for `p :: ps`, a failure of `p` is returned verbatim (same expectations,
same possibly-advanced position — the remaining parsers contribute
nothing), and a success of `p` with value `v` at `j` prepends `v` to the
outcome of the remaining sequence started at `j`, so that full success
collects the ordered values and the final position. -/
theorem seq_threads_and_short_circuits
    (p : Parser α) (ps : List (Parser α)) (input : List Char) (i : Nat) :
    seq ([] : List (Parser α)) input i = .success [] i ∧
    (∀ e j, p input i = .failure e j →
      seq (p :: ps) input i = .failure e j) ∧
    (∀ v j, p input i = .success v j →
      seq (p :: ps) input i = consValue v (seq ps input j)) := by
  refine ⟨rfl, ?_, ?_⟩
  · intro e j h
    simp [seq, seqGo, h]
  · intro v j h
    simp only [seq, seqGo, h]
    rw [seqGo_append ps j ([] ++ [v])]
    cases hr : seqGo ps input j [] <;> simp [appendValues, consValue]

/-- Witness for C2, the spec's own example: `seq(char('a'), char('b'))` on
`"ac"` at 0 fails with expectations `["'b'"]` at position 1, not 0. -/
theorem seq_short_circuit_witness :
    seq [char 'a', char 'b'] ['a', 'c'] 0 = .failure [quoteChar 'b'] 1 := by
  have h1 := (seq_threads_and_short_circuits
    (char 'a') [char 'b'] ['a', 'c'] 0).2.2 'a' 1 (by decide)
  have h2 := (seq_threads_and_short_circuits
    (char 'b') [] ['a', 'c'] 1).2.1 [quoteChar 'b'] 1 (by decide)
  rw [h1, h2]
  decide

/-- C9.  `string("")` succeeds at every position of every input — also at
positions strictly beyond the input's length, where `slice` still returns
the empty string — with value `""` and an unmoved position. -/
theorem string_empty_always_succeeds (input : List Char) (i : Nat) :
    string [] input i = .success [] i := by
  simp [string]

/-- C6.  Memoization transparency: starting from any cache whose entries
agree with the wrapped parser on this input, `memoize(p)` returns exactly
`p`'s outcome, and invoking the wrapped instance a second time at the same
position returns the previously computed outcome from the (unchanged)
cache with the invocation flag `false` — the wrapped parser is not
re-run. -/
theorem memoize_transparent (p : Parser α) (cache : Cache α)
    (input : List Char) (i : Nat)
    (hc : ∀ j r, cacheGet cache j = some r → r = p input j) :
    (memoize p cache input i).1 = p input i ∧
    memoize p (memoize p cache input i).2.1 input i =
      ((memoize p cache input i).1, (memoize p cache input i).2.1, false) := by
  cases h : cacheGet cache i with
  | some r =>
      have hr := hc i r h
      simp [memoize, h, hr]
  | none =>
      have hget : cacheGet ((i, p input i) :: cache) i = some (p input i) := by
        simp [cacheGet]
      simp [memoize, h, hget]

/-- Witness for C6 at a concrete parser, input and empty cache. -/
theorem memoize_transparent_witness :
    (memoize (char 'a') [] ['a', 'b'] 0).1 = char 'a' ['a', 'b'] 0 ∧
    memoize (char 'a') (memoize (char 'a') [] ['a', 'b'] 0).2.1 ['a', 'b'] 0 =
      ((memoize (char 'a') [] ['a', 'b'] 0).1,
        (memoize (char 'a') [] ['a', 'b'] 0).2.1, false) :=
  memoize_transparent (char 'a') [] ['a', 'b'] 0
    (fun j r h => by simp [cacheGet] at h)

/-- C7.  `eof(p)` propagates `p`'s failure unchanged; on `p`'s success at
position `j` it returns that success verbatim when `j` equals the input
length and otherwise fails with expectations exactly `["end of input"]`
at `j` — the position `p` reached, not the starting one. -/
theorem eof_requires_end_of_input (p : Parser α) (input : List Char) (i : Nat) :
    (∀ e j, p input i = .failure e j → eof p input i = .failure e j) ∧
    (∀ v j, p input i = .success v j →
      (j = input.length → eof p input i = .success v j) ∧
      (j ≠ input.length → eof p input i = .failure ["end of input"] j)) := by
  constructor
  · intro e j h; simp [eof, h]
  · intro v j h
    constructor
    · intro hj; simp [eof, h, hj]
    · intro hj; simp [eof, h, hj]

/-- Witness for C7, the spec's own example: `eof(string("hi"))` on `"hi!"`
at 0 fails with expectations `["end of input"]` at position 2. -/
theorem eof_requires_end_of_input_witness :
    eof (string ['h', 'i']) ['h', 'i', '!'] 0 = .failure ["end of input"] 2 :=
  ((eof_requires_end_of_input (string ['h', 'i']) ['h', 'i', '!'] 0).2
    ['h', 'i'] 2 (by decide)).2 (by decide)

/-- C8.  `map(p, fn, validate?)` propagates `p`'s failure unchanged; when
`p` succeeds with `v` at `j` and the supplied `validate` rejects `v`, it
fails with expectations exactly `["validated value"]` at the original
position `i` (not `j`); when `validate` is absent or accepts `v`, it
succeeds with `fn v` at `j`. -/
theorem map_validates_at_original_position (p : Parser α) (fn : α → β)
    (validate : Option (α → Bool)) (input : List Char) (i : Nat) :
    (∀ e j, p input i = .failure e j →
      map p fn validate input i = .failure e j) ∧
    (∀ v j, p input i = .success v j →
      (∀ vd, validate = some vd → vd v = false →
        map p fn validate input i = .failure ["validated value"] i) ∧
      (validate = none → map p fn validate input i = .success (fn v) j) ∧
      (∀ vd, validate = some vd → vd v = true →
        map p fn validate input i = .success (fn v) j)) := by
  constructor
  · intro e j h; simp [map, h]
  · intro v j h
    refine ⟨?_, ?_, ?_⟩
    · intro vd hvd hrej; simp [map, h, hvd, hrej]
    · intro hvd; simp [map, h, hvd]
    · intro vd hvd hacc; simp [map, h, hvd, hacc]

/-- Witness for C8: `map(anyChar, id, isDigit)` on `"a"` at 0 rejects the
parsed character and fails with `["validated value"]` at position 0. -/
theorem map_validates_witness :
    map anyChar (fun c => c) (some isDigitJS) ['a'] 0 =
      .failure ["validated value"] 0 :=
  ((map_validates_at_original_position anyChar (fun c => c) (some isDigitJS)
    ['a'] 0).2 'a' 1 (by decide)).1 isDigitJS rfl (by decide)

/-- C4 (failing-input evaluation).  `letter()` does succeed on exactly one
ASCII letter, returning it — but where it fails, its expectations are
`["validated value"]` (or `["any character"]` at end of input), the same
strings the unrelated `digit()` failure produces: no letter-class
expectation is ever reported.  The repository's own test suite expects the
class-named expectation (`["digit"]`) from the analogous digit path. -/
theorem letter_reports_no_letter_class_expectation :
    letter ['x'] 0 = .success 'x' 1 ∧
    letter ['1'] 0 = .failure ["validated value"] 0 ∧
    letter [] 0 = .failure ["any character"] 0 ∧
    digit ['a'] 0 = .failure ["validated value"] 0 := by
  decide

theorem wsCount_le (l : List Char) : wsCount l ≤ l.length := by
  induction l with
  | nil => simp [wsCount]
  | cons c rest ih =>
      by_cases hc : isWsJS c
      · simpa [wsCount, hc] using ih
      · simp [wsCount, hc]

theorem wsCount_mem (l : List Char) (k : Nat) (hk : k < wsCount l) :
    ∃ c, l[k]? = some c ∧ isWsJS c = true := by
  induction l generalizing k with
  | nil => simp [wsCount] at hk
  | cons c rest ih =>
      by_cases hc : isWsJS c
      · cases k with
        | zero => exact ⟨c, by simp, hc⟩
        | succ k' =>
            have hk' : k' < wsCount rest := by
              simpa [wsCount, hc] using hk
            simpa using ih k' hk'
      · simp [wsCount, hc] at hk

theorem wsCount_boundary (l : List Char) :
    wsCount l = l.length ∨
      ∃ c, l[wsCount l]? = some c ∧ isWsJS c = false := by
  induction l with
  | nil => exact Or.inl rfl
  | cons c rest ih =>
      by_cases hc : isWsJS c
      · rcases ih with h | ⟨d, hd, hdws⟩
        · exact Or.inl (by simp [wsCount, hc, h])
        · exact Or.inr ⟨d, by simpa [wsCount, hc] using hd, hdws⟩
      · exact Or.inr ⟨c, by simp [wsCount, hc], by simpa using hc⟩

theorem wsEnd_ge (input : List Char) (j : Nat) : j ≤ wsEnd input j :=
  Nat.le_add_right j _

theorem wsEnd_mem (input : List Char) (j k : Nat) (hjk : j ≤ k)
    (hk : k < wsEnd input j) :
    ∃ c, input[k]? = some c ∧ isWsJS c = true := by
  have hlt : k - j < wsCount (input.drop j) := by
    simp only [wsEnd] at hk
    omega
  obtain ⟨c, hc, hws⟩ := wsCount_mem (input.drop j) (k - j) hlt
  refine ⟨c, ?_, hws⟩
  rw [List.getElem?_drop] at hc
  rwa [show j + (k - j) = k by omega] at hc

theorem wsEnd_boundary (input : List Char) (j : Nat) (hj : j ≤ input.length) :
    wsEnd input j = input.length ∨
      ∃ c, input[wsEnd input j]? = some c ∧ isWsJS c = false := by
  rcases wsCount_boundary (input.drop j) with h | ⟨c, hc, hws⟩
  · left
    have := List.length_drop j input
    simp only [wsEnd, h]
    omega
  · right
    refine ⟨c, ?_, hws⟩
    rw [List.getElem?_drop] at hc
    simpa [wsEnd] using hc

/-- C10.  `token(p)` fails exactly when `p` fails, returning `p`'s failure
verbatim (the trailing-whitespace stage always succeeds); on `p`'s success
with value `v` at `j`, it succeeds with `v` at the position after the
maximal `\s` run starting at `j`: every position of the run holds a
whitespace character, and the run ends at the input's end or at a
non-whitespace character. -/
theorem token_skips_trailing_whitespace (p : Parser α) (input : List Char)
    (i : Nat) :
    ((token p input i).isFailure = (p input i).isFailure) ∧
    (∀ e j, p input i = .failure e j → token p input i = .failure e j) ∧
    (∀ v j, p input i = .success v j →
      token p input i = .success v (wsEnd input j) ∧
      j ≤ wsEnd input j ∧
      (∀ k, j ≤ k → k < wsEnd input j →
        ∃ c, input[k]? = some c ∧ isWsJS c = true) ∧
      (j ≤ input.length →
        wsEnd input j = input.length ∨
          ∃ c, input[wsEnd input j]? = some c ∧ isWsJS c = false)) := by
  refine ⟨?_, ?_, ?_⟩
  · cases h : p input i with
    | success v j =>
        simp [token, map, seq2, h, whitespaces, ParseResult.isFailure]
    | failure e j =>
        simp [token, map, seq2, h, ParseResult.isFailure]
  · intro e j h
    simp [token, map, seq2, h]
  · intro v j h
    refine ⟨?_, wsEnd_ge input j, wsEnd_mem input j, wsEnd_boundary input j⟩
    simp [token, map, seq2, h, whitespaces]

/-- Witness for C10: `token(string("hi"))` on `"hi  x"` at 0 succeeds with
value `"hi"` at position 4, past the two-space run. -/
theorem token_skips_trailing_whitespace_witness :
    token (string ['h', 'i']) ['h', 'i', ' ', ' ', 'x'] 0 =
      .success ['h', 'i'] 4 := by
  have h := ((token_skips_trailing_whitespace (string ['h', 'i'])
    ['h', 'i', ' ', ' ', 'x'] 0).2.2 ['h', 'i'] 2 (by decide)).1
  exact h.trans (by decide)

/-! ### No-backward-motion and non-empty-expectation facts for the
primitives and the fuelled loops -/

theorem char_mono (c : Char) : MonoP (char c) := by
  intro input i v j h
  simp only [char] at h
  split at h
  · cases h; omega
  · cases h

theorem string_mono (s : List Char) : MonoP (string s) := by
  intro input i v j h
  simp only [string] at h
  split at h
  · cases h; omega
  · cases h

theorem anyChar_mono : MonoP anyChar := by
  intro input i v j h
  simp only [anyChar] at h
  cases hr : input[i]? with
  | some c => rw [hr] at h; cases h; omega
  | none => rw [hr] at h; cases h

theorem whitespace_mono : MonoP whitespace := by
  intro input i v j h
  simp only [whitespace] at h
  cases hr : input[i]? with
  | some c =>
      by_cases hc : (c = ' ' ∨ c = '\t' ∨ c = '\n' ∨ c = '\r')
      · simp only [hr, if_pos hc] at h; cases h; omega
      · simp only [hr, if_neg hc] at h; cases h
  | none => simp only [hr] at h; cases h

theorem whitespaces_mono : MonoP whitespaces := by
  intro input i v j h
  cases h
  exact wsEnd_ge input i

theorem succeed_mono (v : α) : MonoP (succeed v) := by
  intro input i v' j h
  cases h
  exact Nat.le_refl i

theorem fail_mono (msg : String) : MonoP (fail α msg) := by
  intro input i v j h
  cases h

theorem map_mono {p : Parser α} (hp : MonoP p) (fn : α → β)
    (validate : Option (α → Bool)) : MonoP (map p fn validate) := by
  intro input i v j h
  simp only [map] at h
  cases hr : p input i with
  | failure e k => rw [hr] at h; cases h
  | success w k =>
      rw [hr] at h
      have hk := hp input i w k hr
      cases validate with
      | none => cases h; exact hk
      | some vd =>
          simp only at h
          split at h
          · cases h; exact hk
          · cases h

theorem letter_mono : MonoP letter := map_mono anyChar_mono _ _

theorem digit_mono : MonoP digit := map_mono anyChar_mono _ _

theorem char_nef (c : Char) : NEFailP (char c) := by
  intro input i e j h
  simp only [char] at h
  split at h
  · cases h
  · cases h; simp

theorem string_nef (s : List Char) : NEFailP (string s) := by
  intro input i e j h
  simp only [string] at h
  split at h
  · cases h
  · cases h; simp

theorem anyChar_nef : NEFailP anyChar := by
  intro input i e j h
  simp only [anyChar] at h
  cases hr : input[i]? with
  | some c => rw [hr] at h; cases h
  | none => rw [hr] at h; cases h; simp

theorem whitespace_nef : NEFailP whitespace := by
  intro input i e j h
  simp only [whitespace] at h
  cases hr : input[i]? with
  | some c =>
      by_cases hc : (c = ' ' ∨ c = '\t' ∨ c = '\n' ∨ c = '\r')
      · simp only [hr, if_pos hc] at h; cases h
      · simp only [hr, if_neg hc] at h; cases h; simp
  | none => simp only [hr] at h; cases h; simp

theorem map_nef {p : Parser α} (hp : NEFailP p) (fn : α → β)
    (validate : Option (α → Bool)) : NEFailP (map p fn validate) := by
  intro input i e j h
  simp only [map] at h
  cases hr : p input i with
  | failure e' k =>
      rw [hr] at h; cases h
      exact hp _ _ _ _ hr
  | success w k =>
      rw [hr] at h
      cases validate with
      | none => cases h
      | some vd =>
          simp only at h
          split at h
          · cases h
          · cases h; simp

theorem letter_nef : NEFailP letter := map_nef anyChar_nef _ _

theorem digit_nef : NEFailP digit := map_nef anyChar_nef _ _

theorem manyGo_mono {p : OParser α} (hp : MonoO p) :
    ∀ (fuel : Nat) (input : List Char) (i : Nat) (acc vs : List α) (k : Nat),
      manyGo p fuel input i acc = some (.success vs k) → i ≤ k := by
  intro fuel
  induction fuel with
  | zero => intro input i acc vs k h; cases h
  | succ n ih =>
      intro input i acc vs k h
      simp only [manyGo] at h
      cases hr : p input i with
      | none => rw [hr] at h; cases h
      | some r =>
          rw [hr] at h
          cases r with
          | failure e j => cases h; exact Nat.le_refl i
          | success v j =>
              exact Nat.le_trans (hp input i v j hr) (ih input j _ vs k h)

theorem manyGo_ne_failure {p : OParser α} :
    ∀ (fuel : Nat) (input : List Char) (i : Nat) (acc : List α)
      (e : List String) (k : Nat),
      manyGo p fuel input i acc ≠ some (.failure e k) := by
  intro fuel
  induction fuel with
  | zero => intro input i acc e k h; cases h
  | succ n ih =>
      intro input i acc e k h
      simp only [manyGo] at h
      cases hr : p input i with
      | none => rw [hr] at h; cases h
      | some r =>
          rw [hr] at h
          cases r with
          | failure e' j => cases h
          | success v j => exact ih input j _ e k h

theorem untilGo_mono {stop : OParser σ} {p : OParser α} (hp : MonoO p) :
    ∀ (fuel : Nat) (input : List Char) (i : Nat) (acc vs : List α) (k : Nat),
      untilGo stop p fuel input i acc = some (.success vs k) → i ≤ k := by
  intro fuel
  induction fuel with
  | zero => intro input i acc vs k h; cases h
  | succ n ih =>
      intro input i acc vs k h
      simp only [untilGo] at h
      cases hs : stop input i with
      | none => rw [hs] at h; cases h
      | some rs =>
          rw [hs] at h
          cases rs with
          | success v j => cases h; exact Nat.le_refl i
          | failure e j =>
              cases hr : p input i with
              | none => rw [hr] at h; cases h
              | some r =>
                  rw [hr] at h
                  cases r with
                  | failure e' j' => cases h
                  | success v j' =>
                      exact Nat.le_trans (hp input i v j' hr)
                        (ih input j' _ vs k h)

theorem untilGo_nef {stop : OParser σ} {p : OParser α} (hp : NEFailO p) :
    ∀ (fuel : Nat) (input : List Char) (i : Nat) (acc : List α)
      (e : List String) (k : Nat),
      untilGo stop p fuel input i acc = some (.failure e k) → e ≠ [] := by
  intro fuel
  induction fuel with
  | zero => intro input i acc e k h; cases h
  | succ n ih =>
      intro input i acc e k h
      simp only [untilGo] at h
      cases hs : stop input i with
      | none => rw [hs] at h; cases h
      | some rs =>
          rw [hs] at h
          cases rs with
          | success v j => cases h
          | failure e' j =>
              cases hr : p input i with
              | none => rw [hr] at h; cases h
              | some r =>
                  rw [hr] at h
                  cases r with
                  | failure e'' j' => cases h; exact hp _ _ _ _ hr
                  | success v j' => exact ih input j' _ e k h

/-! ### No backward motion over the whole library -/

/-- Induction on fuel: every denoted built parser (with monotone external
continuations), the `alt` loop and the `seq` loop never move backwards on
success. -/
theorem monoAll (fuel : Nat) :
    (∀ {α : Type} (c : Built α), ExtMono c → MonoO (denote fuel c)) ∧
    (∀ {α : Type} (ps : BuiltList α), ExtMonoList ps →
      ∀ (input : List Char) (i : Nat) (errors : List String) (v : α) (j : Nat),
        denoteAlt fuel ps input i errors = some (.success v j) → i ≤ j) ∧
    (∀ {α : Type} (ps : BuiltList α), ExtMonoList ps →
      ∀ (input : List Char) (current : Nat) (values v : List α) (j : Nat),
        denoteSeq fuel ps input current values = some (.success v j) →
          current ≤ j) := by
  induction fuel with
  | zero =>
      refine ⟨?_, ?_, ?_⟩
      · intro α c hc input i v j h
        cases c <;> simp [denote] at h
      · intro α ps hps input i errors v j h
        cases ps <;> simp [denoteAlt] at h
      · intro α ps hps input current values v j h
        cases ps <;> simp [denoteSeq] at h
  | succ n ih =>
      obtain ⟨ihC, ihA, ihS⟩ := ih
      refine ⟨?_, ?_, ?_⟩
      · intro α c hc input i v j h
        cases c with
        | charC ch =>
            simp only [denote] at h
            exact char_mono ch input i v j (Option.some.inj h)
        | stringC s =>
            simp only [denote] at h
            exact string_mono s input i v j (Option.some.inj h)
        | anyCharC =>
            simp only [denote] at h
            exact anyChar_mono input i v j (Option.some.inj h)
        | whitespaceC =>
            simp only [denote] at h
            exact whitespace_mono input i v j (Option.some.inj h)
        | whitespacesC =>
            simp only [denote] at h
            exact whitespaces_mono input i v j (Option.some.inj h)
        | letterC =>
            simp only [denote] at h
            exact letter_mono input i v j (Option.some.inj h)
        | digitC =>
            simp only [denote] at h
            exact digit_mono input i v j (Option.some.inj h)
        | succeedC v0 =>
            simp only [denote] at h
            exact succeed_mono v0 input i v j (Option.some.inj h)
        | failC msg =>
            simp [denote] at h
        | altC ps =>
            have hps : ExtMonoList ps := by rwa [ExtMono] at hc
            simp only [denote] at h
            exact ihA ps hps input i [] v j h
        | seqC ps =>
            have hps : ExtMonoList ps := by rwa [ExtMono] at hc
            simp only [denote] at h
            exact ihS ps hps input i [] v j h
        | mapC p fn validate =>
            have hp : ExtMono p := by rwa [ExtMono] at hc
            simp only [denote] at h
            cases hr : denote n p input i with
            | none => simp [hr] at h
            | some r =>
                cases r with
                | failure e k => simp [hr] at h
                | success w k =>
                    have hik := ihC p hp input i w k hr
                    cases validate with
                    | none =>
                        simp [hr] at h
                        obtain ⟨-, h2⟩ := h
                        omega
                    | some vd =>
                        by_cases hv : vd w = true
                        · simp [hr, hv] at h
                          obtain ⟨-, h2⟩ := h
                          omega
                        · simp [hr, hv] at h
        | manyC p =>
            have hp : ExtMono p := by rwa [ExtMono] at hc
            simp only [denote] at h
            exact manyGo_mono (ihC p hp) n input i [] v j h
        | many1C p =>
            have hp : ExtMono p := by rwa [ExtMono] at hc
            simp only [denote] at h
            cases hr : denote n p input i with
            | none => simp [hr] at h
            | some r =>
                cases r with
                | failure e k => simp [hr] at h
                | success w k =>
                    simp only [hr] at h
                    exact Nat.le_trans (ihC p hp input i w k hr)
                      (manyGo_mono (ihC p hp) n input k [w] v j h)
        | optionalC p =>
            have hp : ExtMono p := by rwa [ExtMono] at hc
            simp only [denote] at h
            cases hr : denote n p input i with
            | none => simp [hr] at h
            | some r =>
                cases r with
                | success w k =>
                    have hik := ihC p hp input i w k hr
                    simp [hr] at h
                    obtain ⟨-, h2⟩ := h
                    omega
                | failure e k =>
                    simp [hr] at h
                    obtain ⟨-, h2⟩ := h
                    omega
        | betweenC left right p =>
            rw [ExtMono] at hc
            obtain ⟨hleft, hright, hp⟩ := hc
            simp only [denote] at h
            cases h1r : denote n left input i with
            | none => simp [h1r] at h
            | some r1 =>
                cases r1 with
                | failure e k => simp [h1r] at h
                | success w1 k1 =>
                    simp only [h1r] at h
                    cases h2r : denote n p input k1 with
                    | none => simp [h2r] at h
                    | some r2 =>
                        cases r2 with
                        | failure e k => simp [h2r] at h
                        | success w2 k2 =>
                            simp only [h2r] at h
                            cases h3r : denote n right input k2 with
                            | none => simp [h3r] at h
                            | some r3 =>
                                cases r3 with
                                | failure e k => simp [h3r] at h
                                | success w3 k3 =>
                                    have a1 := ihC left hleft input i w1 k1 h1r
                                    have a2 := ihC p hp input k1 w2 k2 h2r
                                    have a3 := ihC right hright input k2 w3 k3 h3r
                                    simp [h3r] at h
                                    obtain ⟨-, h2⟩ := h
                                    omega
        | afterC pre p =>
            rw [ExtMono] at hc
            obtain ⟨hpre, hp⟩ := hc
            simp only [denote] at h
            cases h1r : denote n pre input i with
            | none => simp [h1r] at h
            | some r1 =>
                cases r1 with
                | failure e k => simp [h1r] at h
                | success w1 k1 =>
                    simp only [h1r] at h
                    cases h2r : denote n p input k1 with
                    | none => simp [h2r] at h
                    | some r2 =>
                        cases r2 with
                        | failure e k => simp [h2r] at h
                        | success w2 k2 =>
                            have a1 := ihC pre hpre input i w1 k1 h1r
                            have a2 := ihC p hp input k1 w2 k2 h2r
                            simp [h2r] at h
                            obtain ⟨-, h2⟩ := h
                            omega
        | untilC stop p =>
            have hp : ExtMono p := by rw [ExtMono] at hc; exact hc.2
            simp only [denote] at h
            exact untilGo_mono (ihC p hp) n input i [] v j h
        | notC p toStr =>
            simp only [denote] at h
            cases hr : denote n p input i with
            | none => simp [hr] at h
            | some r =>
                cases r with
                | success w k => simp [hr] at h
                | failure e k =>
                    simp [hr] at h
                    omega
        | exceptC excl toStr p =>
            have hp : ExtMono p := by rw [ExtMono] at hc; exact hc.2
            simp only [denote] at h
            cases hr : denote n excl input i with
            | none => simp [hr] at h
            | some r =>
                cases r with
                | success w k => simp [hr] at h
                | failure e k =>
                    simp only [hr] at h
                    exact ihC p hp input i v j h
        | peekC p =>
            simp only [denote] at h
            cases hr : denote n p input i with
            | none => simp [hr] at h
            | some r =>
                cases r with
                | failure e k => simp [hr] at h
                | success w k =>
                    simp [hr] at h
                    obtain ⟨-, h2⟩ := h
                    omega
        | eofC p =>
            have hp : ExtMono p := by rwa [ExtMono] at hc
            simp only [denote] at h
            cases hr : denote n p input i with
            | none => simp [hr] at h
            | some r =>
                cases r with
                | failure e k => simp [hr] at h
                | success w k =>
                    have hik := ihC p hp input i w k hr
                    by_cases hk : k = input.length
                    · simp [hr, hk] at h
                      obtain ⟨-, h2⟩ := h
                      omega
                    · simp [hr, hk] at h
        | tokenC p =>
            have hp : ExtMono p := by rwa [ExtMono] at hc
            simp only [denote] at h
            cases hr : denote n p input i with
            | none => simp [hr] at h
            | some r =>
                cases r with
                | failure e k => simp [hr] at h
                | success w k =>
                    have hik := ihC p hp input i w k hr
                    have hws := wsEnd_ge input k
                    simp [hr] at h
                    obtain ⟨-, h2⟩ := h
                    omega
        | recoverWithC p expected =>
            have hp : ExtMono p := by rwa [ExtMono] at hc
            simp only [denote] at h
            cases hr : denote n p input i with
            | none => simp [hr] at h
            | some r =>
                cases r with
                | failure e k => simp [hr] at h
                | success w k =>
                    have hik := ihC p hp input i w k hr
                    simp [hr] at h
                    obtain ⟨-, h2⟩ := h
                    omega
        | andThenC p f =>
            rw [ExtMono] at hc
            obtain ⟨hp, hf⟩ := hc
            simp only [denote] at h
            cases hr : denote n p input i with
            | none => simp [hr] at h
            | some r =>
                cases r with
                | failure e k => simp [hr] at h
                | success w k =>
                    simp only [hr] at h
                    have hik := ihC p hp input i w k hr
                    have hkj := hf w input k v j (Option.some.inj h)
                    omega
      · intro α ps hps input i errors v j h
        cases ps with
        | nil => simp [denoteAlt] at h
        | cons p rest =>
            rw [ExtMonoList] at hps
            obtain ⟨hp, hrest⟩ := hps
            simp only [denoteAlt] at h
            cases hr : denote n p input i with
            | none => simp [hr] at h
            | some r =>
                cases r with
                | success w k =>
                    have hik := ihC p hp input i w k hr
                    simp [hr] at h
                    obtain ⟨-, h2⟩ := h
                    omega
                | failure e k =>
                    simp only [hr] at h
                    exact ihA rest hrest input i (errors ++ e) v j h
      · intro α ps hps input current values v j h
        cases ps with
        | nil =>
            simp [denoteSeq] at h
            obtain ⟨-, h2⟩ := h
            omega
        | cons p rest =>
            rw [ExtMonoList] at hps
            obtain ⟨hp, hrest⟩ := hps
            simp only [denoteSeq] at h
            cases hr : denote n p input current with
            | none => simp [hr] at h
            | some r =>
                cases r with
                | failure e k => simp [hr] at h
                | success w k =>
                    simp only [hr] at h
                    exact Nat.le_trans (ihC p hp input current w k hr)
                      (ihS rest hrest input k (values ++ [w]) v j h)

/-! ### Non-empty failure expectations over the whole library -/

/-- Induction on fuel: under the `AltNE` side conditions, every failure a
denoted built parser (or one of the `alt`/`seq` loops) produces carries a
non-empty expectations list. -/
theorem neAll (fuel : Nat) :
    (∀ {α : Type} (c : Built α), AltNE c → NEFailO (denote fuel c)) ∧
    (∀ {α : Type} (ps : BuiltList α), AltNEList ps →
      ∀ (input : List Char) (i : Nat) (errors : List String) (e : List String)
        (j : Nat),
        errors ≠ [] ∨ ps ≠ BuiltList.nil →
        denoteAlt fuel ps input i errors = some (.failure e j) → e ≠ []) ∧
    (∀ {α : Type} (ps : BuiltList α), AltNEList ps →
      ∀ (input : List Char) (current : Nat) (values : List α)
        (e : List String) (j : Nat),
        denoteSeq fuel ps input current values = some (.failure e j) →
          e ≠ []) := by
  induction fuel with
  | zero =>
      refine ⟨?_, ?_, ?_⟩
      · intro α c hc input i e j h
        cases c <;> simp [denote] at h
      · intro α ps hps input i errors e j hcond h
        cases ps <;> simp [denoteAlt] at h
      · intro α ps hps input current values e j h
        cases ps <;> simp [denoteSeq] at h
  | succ n ih =>
      obtain ⟨ihC, ihA, ihS⟩ := ih
      refine ⟨?_, ?_, ?_⟩
      · intro α c hc input i e j h
        cases c with
        | charC ch =>
            simp only [denote] at h
            exact char_nef ch input i e j (Option.some.inj h)
        | stringC s =>
            simp only [denote] at h
            exact string_nef s input i e j (Option.some.inj h)
        | anyCharC =>
            simp only [denote] at h
            exact anyChar_nef input i e j (Option.some.inj h)
        | whitespaceC =>
            simp only [denote] at h
            exact whitespace_nef input i e j (Option.some.inj h)
        | whitespacesC =>
            simp [denote, whitespaces] at h
        | letterC =>
            simp only [denote] at h
            exact letter_nef input i e j (Option.some.inj h)
        | digitC =>
            simp only [denote] at h
            exact digit_nef input i e j (Option.some.inj h)
        | succeedC v0 =>
            simp [denote, succeed] at h
        | failC msg =>
            simp [denote] at h
            obtain ⟨h1, -⟩ := h
            subst h1
            simp
        | altC ps =>
            cases ps with
            | nil =>
                rw [AltNE] at hc
                exact hc.elim
            | cons p rest =>
                rw [AltNE] at hc
                obtain ⟨hp, hrest⟩ := hc
                simp only [denote] at h
                refine ihA (BuiltList.cons p rest) ?_ input i [] e j ?_ h
                · rw [AltNEList]; exact ⟨hp, hrest⟩
                · exact Or.inr (fun heq => BuiltList.noConfusion heq)
        | seqC ps =>
            have hps : AltNEList ps := by rwa [AltNE] at hc
            simp only [denote] at h
            exact ihS ps hps input i [] e j h
        | mapC p fn validate =>
            have hp : AltNE p := by rwa [AltNE] at hc
            simp only [denote] at h
            cases hr : denote n p input i with
            | none => simp [hr] at h
            | some r =>
                cases r with
                | failure ep k =>
                    simp [hr] at h
                    obtain ⟨h1, -⟩ := h
                    subst h1
                    exact ihC p hp input i ep k hr
                | success w k =>
                    cases validate with
                    | none => simp [hr] at h
                    | some vd =>
                        by_cases hv : vd w = true
                        · simp [hr, hv] at h
                        · simp [hr, hv] at h
                          obtain ⟨h1, -⟩ := h
                          subst h1
                          simp
        | manyC p =>
            simp only [denote] at h
            exact absurd h (manyGo_ne_failure n input i [] e j)
        | many1C p =>
            have hp : AltNE p := by rwa [AltNE] at hc
            simp only [denote] at h
            cases hr : denote n p input i with
            | none => simp [hr] at h
            | some r =>
                cases r with
                | failure ep k =>
                    simp [hr] at h
                    obtain ⟨h1, -⟩ := h
                    subst h1
                    exact ihC p hp input i ep k hr
                | success w k =>
                    simp only [hr] at h
                    exact absurd h (manyGo_ne_failure n input k [w] e j)
        | optionalC p =>
            simp only [denote] at h
            cases hr : denote n p input i with
            | none => simp [hr] at h
            | some r =>
                cases r with
                | success w k => simp [hr] at h
                | failure ep k => simp [hr] at h
        | betweenC left right p =>
            rw [AltNE] at hc
            obtain ⟨hleft, hright, hp⟩ := hc
            simp only [denote] at h
            cases h1r : denote n left input i with
            | none => simp [h1r] at h
            | some r1 =>
                cases r1 with
                | failure ep k =>
                    simp [h1r] at h
                    obtain ⟨h1, -⟩ := h
                    subst h1
                    exact ihC left hleft input i ep k h1r
                | success w1 k1 =>
                    simp only [h1r] at h
                    cases h2r : denote n p input k1 with
                    | none => simp [h2r] at h
                    | some r2 =>
                        cases r2 with
                        | failure ep k =>
                            simp [h2r] at h
                            obtain ⟨h1, -⟩ := h
                            subst h1
                            exact ihC p hp input k1 ep k h2r
                        | success w2 k2 =>
                            simp only [h2r] at h
                            cases h3r : denote n right input k2 with
                            | none => simp [h3r] at h
                            | some r3 =>
                                cases r3 with
                                | failure ep k =>
                                    simp [h3r] at h
                                    obtain ⟨h1, -⟩ := h
                                    subst h1
                                    exact ihC right hright input k2 ep k h3r
                                | success w3 k3 => simp [h3r] at h
        | afterC pre p =>
            rw [AltNE] at hc
            obtain ⟨hpre, hp⟩ := hc
            simp only [denote] at h
            cases h1r : denote n pre input i with
            | none => simp [h1r] at h
            | some r1 =>
                cases r1 with
                | failure ep k =>
                    simp [h1r] at h
                    obtain ⟨h1, -⟩ := h
                    subst h1
                    exact ihC pre hpre input i ep k h1r
                | success w1 k1 =>
                    simp only [h1r] at h
                    cases h2r : denote n p input k1 with
                    | none => simp [h2r] at h
                    | some r2 =>
                        cases r2 with
                        | failure ep k =>
                            simp [h2r] at h
                            obtain ⟨h1, -⟩ := h
                            subst h1
                            exact ihC p hp input k1 ep k h2r
                        | success w2 k2 => simp [h2r] at h
        | untilC stop p =>
            have hp : AltNE p := by rw [AltNE] at hc; exact hc.2
            simp only [denote] at h
            exact untilGo_nef (ihC p hp) n input i [] e j h
        | notC p toStr =>
            simp only [denote] at h
            cases hr : denote n p input i with
            | none => simp [hr] at h
            | some r =>
                cases r with
                | success w k =>
                    simp [hr] at h
                    obtain ⟨h1, -⟩ := h
                    subst h1
                    simp
                | failure ep k => simp [hr] at h
        | exceptC excl toStr p =>
            have hp : AltNE p := by rw [AltNE] at hc; exact hc.2
            simp only [denote] at h
            cases hr : denote n excl input i with
            | none => simp [hr] at h
            | some r =>
                cases r with
                | success w k =>
                    simp [hr] at h
                    obtain ⟨h1, -⟩ := h
                    subst h1
                    simp
                | failure ep k =>
                    simp only [hr] at h
                    exact ihC p hp input i e j h
        | peekC p =>
            have hp : AltNE p := by rwa [AltNE] at hc
            simp only [denote] at h
            cases hr : denote n p input i with
            | none => simp [hr] at h
            | some r =>
                cases r with
                | success w k => simp [hr] at h
                | failure ep k =>
                    simp [hr] at h
                    obtain ⟨h1, -⟩ := h
                    subst h1
                    exact ihC p hp input i ep k hr
        | eofC p =>
            have hp : AltNE p := by rwa [AltNE] at hc
            simp only [denote] at h
            cases hr : denote n p input i with
            | none => simp [hr] at h
            | some r =>
                cases r with
                | failure ep k =>
                    simp [hr] at h
                    obtain ⟨h1, -⟩ := h
                    subst h1
                    exact ihC p hp input i ep k hr
                | success w k =>
                    by_cases hk : k = input.length
                    · simp [hr, hk] at h
                    · simp [hr, hk] at h
                      obtain ⟨h1, -⟩ := h
                      subst h1
                      simp
        | tokenC p =>
            have hp : AltNE p := by rwa [AltNE] at hc
            simp only [denote] at h
            cases hr : denote n p input i with
            | none => simp [hr] at h
            | some r =>
                cases r with
                | failure ep k =>
                    simp [hr] at h
                    obtain ⟨h1, -⟩ := h
                    subst h1
                    exact ihC p hp input i ep k hr
                | success w k => simp [hr] at h
        | recoverWithC p expected =>
            rw [AltNE] at hc
            obtain ⟨hne, hp⟩ := hc
            simp only [denote] at h
            cases hr : denote n p input i with
            | none => simp [hr] at h
            | some r =>
                cases r with
                | success w k => simp [hr] at h
                | failure ep k =>
                    simp [hr] at h
                    obtain ⟨h1, -⟩ := h
                    subst h1
                    exact hne
        | andThenC p f =>
            rw [AltNE] at hc
            obtain ⟨hp, hf⟩ := hc
            simp only [denote] at h
            cases hr : denote n p input i with
            | none => simp [hr] at h
            | some r =>
                cases r with
                | failure ep k =>
                    simp [hr] at h
                    obtain ⟨h1, -⟩ := h
                    subst h1
                    exact ihC p hp input i ep k hr
                | success w k =>
                    simp only [hr] at h
                    exact hf w input k e j (Option.some.inj h)
      · intro α ps hps input i errors e j hcond h
        cases ps with
        | nil =>
            have herr : errors ≠ [] := by
              rcases hcond with herr | hnil
              · exact herr
              · exact absurd rfl hnil
            simp [denoteAlt] at h
            obtain ⟨h1, -⟩ := h
            subst h1
            exact dedup_ne_nil herr
        | cons p rest =>
            rw [AltNEList] at hps
            obtain ⟨hp, hrest⟩ := hps
            simp only [denoteAlt] at h
            cases hr : denote n p input i with
            | none => simp [hr] at h
            | some r =>
                cases r with
                | success w k => simp [hr] at h
                | failure ep k =>
                    have hep : ep ≠ [] := ihC p hp input i ep k hr
                    simp only [hr] at h
                    refine ihA rest hrest input i (errors ++ ep) e j (Or.inl ?_) h
                    intro hcontra
                    exact hep (List.append_eq_nil.mp hcontra).2
      · intro α ps hps input current values e j h
        cases ps with
        | nil => simp [denoteSeq] at h
        | cons p rest =>
            rw [AltNEList] at hps
            obtain ⟨hp, hrest⟩ := hps
            simp only [denoteSeq] at h
            cases hr : denote n p input current with
            | none => simp [hr] at h
            | some r =>
                cases r with
                | failure ep k =>
                    simp [hr] at h
                    obtain ⟨h1, -⟩ := h
                    subst h1
                    exact ihC p hp input current ep k hr
                | success w k =>
                    simp only [hr] at h
                    exact ihS rest hrest input k (values ++ [w]) e j h

/-- C5.  No backward motion: for every parser built from the library's
primitives and combinators — with every `andThen`-supplied external
sub-parser itself satisfying the property — a success computed from
starting position `i` ends at a position `j ≥ i`.  Stated over the
fuelled denotation: any terminating run that succeeds moved forward. -/
theorem built_no_backward_motion {α : Type} (fuel : Nat) (c : Built α)
    (hc : ExtMono c) (input : List Char) (i : Nat) (v : α) (j : Nat)
    (h : denote fuel c input i = some (.success v j)) : i ≤ j :=
  (monoAll fuel).1 c hc input i v j h

/-- Witness for C5: `many(char('a'))` on `"aab"` at 0 succeeds at
position 2, and 0 ≤ 2. -/
theorem built_no_backward_motion_witness :
    denote 10 (Built.manyC (Built.charC 'a')) ['a', 'a', 'b'] 0 =
      some (.success ['a', 'a'] 2) ∧ 0 ≤ 2 :=
  ⟨by decide, built_no_backward_motion 10 (Built.manyC (Built.charC 'a'))
    (by simp [ExtMono]) ['a', 'a', 'b'] 0 ['a', 'a'] 2 (by decide)⟩

/-- C3 counterexample: the nullary application `alt()` is built from the
library's combinators and always fails with an *empty* expectations
list — here evaluated on input `"x"` at position 0. -/
theorem alt_nullary_empty_expectations :
    denote 2 (Built.altC (α := Char) BuiltList.nil) ['x'] 0 =
      some (.failure [] 0) := by
  decide

/-- C3 (amended).  For every parser built from the library's primitives
and combinators in which every `alt` application has at least one
alternative, every `recoverWith` is given a non-empty expectations list,
and every external `andThen` continuation returns parsers whose failures
carry non-empty expectations: every failure result has a non-empty
expectations list. -/
theorem built_failure_expectations_nonempty {α : Type} (fuel : Nat)
    (c : Built α) (hc : AltNE c) (input : List Char) (i : Nat)
    (e : List String) (j : Nat)
    (h : denote fuel c input i = some (.failure e j)) : e ≠ [] :=
  (neAll fuel).1 c hc input i e j h

/-- Witness for C3 (amended): `char('a')` on `"b"` fails with the
non-empty expectations `["'a'"]`. -/
theorem built_failure_expectations_nonempty_witness :
    denote 2 (Built.charC 'a') ['b'] 0 = some (.failure [quoteChar 'a'] 0) ∧
    [quoteChar 'a'] ≠ ([] : List String) :=
  ⟨by decide, built_failure_expectations_nonempty 2 (Built.charC 'a')
    (by simp [AltNE]) ['b'] 0 [quoteChar 'a'] 0 (by decide)⟩

end Combo
